import Mathlib

/-!
Verification of the scenario codec: a bit-level writer and reader, a base64url-style
text transform over a 64-character alphabet, and the versioned scenario format
(generateScenarioCode and parseScenarioCode).  All definitions are shallow embeddings
of the TypeScript source; numbers are Nat, bit streams are List Bool (most significant
bit first), and fallible operations return Option.
-/

namespace Codec

/-- Time unit enumeration, from the TimeUnit union type: Seconds, Minutes, Hours. -/
inductive TimeUnit where
  | Seconds
  | Minutes
  | Hours
deriving DecidableEq

/-- Modelled from the spec: the MIN_STEPS constant lives in a constants module that is
not among the provided sources; the spec observes it as 2. -/
def MIN_STEPS : Nat := 2

/-- Modelled from the spec: the MAX_STEPS constant lives in a constants module that is
not among the provided sources; the spec observes it as 5. -/
def MAX_STEPS : Nat := 5

/-- Step input shape, from the StepParameters type used by the encoder.  The batch
fields are Option to model the JS value undefined: generateScenarioCode reads them
through optional chaining and an or-default, so it tolerates their absence (as happens
when a decoded step, which has no batch fields, is passed back in). -/
structure StepParameters where
  batchSize : Option Nat
  isBatchLocked : Option Bool
  cycleTime : Nat
  setupTime : Nat
  isCycleLocked : Bool
  isSetupLocked : Bool
deriving DecidableEq

/-- Per-step record inside a decoded ScenarioData. -/
structure ScenarioStep where
  cycleTime : Nat
  setupTime : Nat
  isCycleLocked : Bool
  isSetupLocked : Bool
deriving DecidableEq

/-- Decoded configuration, from the ScenarioData interface. -/
structure ScenarioData where
  timeUnit : TimeUnit
  steps : List ScenarioStep
  globalBatchSize : Nat
  globalBatchLocked : Bool
deriving DecidableEq

/-- Value of a most-significant-bit-first bit sequence, as parseInt(chunk, 2)
computes it on a string of 0 and 1 characters. -/
def bitsToNat (bits : List Bool) : Nat :=
  bits.foldl (fun acc b => 2 * acc + (if b then 1 else 0)) 0

/-- Fuel-driven minimal binary rendering of a natural number, most significant bit
first; empty on 0.  The fuel only bounds recursion depth. -/
def natToBitsAux : Nat → Nat → List Bool
  | 0, _ => []
  | fuel + 1, n => if n = 0 then [] else natToBitsAux fuel (n / 2) ++ [decide (n % 2 = 1)]

/-- Minimal binary rendering of a natural number, mirroring value.toString(2):
the single bit 0 for 0, otherwise no leading zero bits. -/
def natToBits (n : Nat) : List Bool :=
  if n = 0 then [false] else natToBitsAux n n

/-- Left-pad a bit sequence with zero bits up to the given width, mirroring the
while loops that prepend the 0 character. -/
def padZeros (width : Nat) (bits : List Bool) : List Bool :=
  List.replicate (width - bits.length) false ++ bits

/-- Bits appended by one BitWriter.write(value, width) call: the binary rendering of
value, cut down to its lowest width bits when too long, left-padded with zero bits
to exactly width. -/
def writeBits (value width : Nat) : List Bool :=
  let b := natToBits value
  let c := if width < b.length then b.drop (b.length - width) else b
  padZeros width c

/-- BitWriter.write as a state transformer on the accumulated bit string. -/
def bwWrite (bits : List Bool) (value width : Nat) : List Bool :=
  bits ++ writeBits value width

/-- BitReader state: the full bit string and the read cursor. -/
structure BitReader where
  bits : List Bool
  pointer : Nat
deriving DecidableEq

/-- BitReader.read(width): fails when fewer than width bits remain, otherwise returns
the next width bits as an unsigned integer and advances the cursor. -/
def rdRead (width : Nat) (r : BitReader) : Option (Nat × BitReader) :=
  if r.bits.length < r.pointer + width then none
  else some (bitsToNat ((r.bits.drop r.pointer).take width), ⟨r.bits, r.pointer + width⟩)

/-- The 64-character base64url alphabet. -/
def CHARS : List Char :=
  "ABCDEFGHIJKLMNOPQRSTUVWXYZabcdefghijklmnopqrstuvwxyz0123456789-_".toList

/-- First index of a character in a list, the search behind CHARS.indexOf. -/
def charIndexAux (c : Char) : List Char → Option Nat
  | [] => none
  | x :: rest => if x == c then some 0 else (charIndexAux c rest).map (fun i => i + 1)

/-- CHARS.indexOf(c), with the -1 sentinel rendered as none. -/
def charIndex (c : Char) : Option Nat :=
  charIndexAux c CHARS

/-- Six-bit rendering of an alphabet index, mirroring index.toString(2) left-padded
with zero characters to length 6. -/
def sixBits (index : Nat) : List Bool :=
  padZeros 6 (natToBits index)

/-- Right-pad a bit sequence with zero bits until its length is a multiple of 6. -/
def padTo6 (binary : List Bool) : List Bool :=
  binary ++ List.replicate ((6 - binary.length % 6) % 6) false

/-- Fuel-driven split of a bit sequence into consecutive 6-bit groups. -/
def chunksAux : Nat → List Bool → List (List Bool)
  | 0, _ => []
  | fuel + 1, l => if l.isEmpty then [] else l.take 6 :: chunksAux fuel (l.drop 6)

/-- binaryStringToBase64: pad to a multiple of 6, split into 6-bit groups, map each
group value to the alphabet character at that index. -/
def binaryStringToBase64 (binary : List Bool) : List Char :=
  let padded := padTo6 binary
  (chunksAux padded.length padded).map (fun seg => CHARS.getD (bitsToNat seg) 'A')

/-- base64ToBinaryString: each character is looked up in the alphabet (failure on an
absent character aborts the whole decode) and rendered as its 6-bit group; groups are
concatenated in input order. -/
def base64ToBinaryString : List Char → Option (List Bool)
  | [] => some []
  | c :: rest =>
    match charIndex c with
    | none => none
    | some index => (base64ToBinaryString rest).map (fun tail => sixBits index ++ tail)

/-- Encode-side index of a time unit, from the unitMap record. -/
def unitIndexOf : TimeUnit → Nat
  | .Seconds => 0
  | .Minutes => 1
  | .Hours => 2

/-- Decode-side array of time units, indexed by the decoded 2-bit value. -/
def timeUnitsArr : List TimeUnit := [.Seconds, .Minutes, .Hours]

/-- Global batch size taken from the first step, mirroring the JS expression
steps[0]?.batchSize with an or-default of 10: an absent first step, an absent
batchSize and the falsy value 0 all yield 10. -/
def firstBatchSize : List StepParameters → Nat
  | [] => 10
  | s :: _ =>
    match s.batchSize with
    | none => 10
    | some b => if b = 0 then 10 else b

/-- Global batch lock taken from the first step, mirroring the JS truthiness test
steps[0]?.isBatchLocked; absence yields false. -/
def firstBatchLock : List StepParameters → Bool
  | [] => false
  | s :: _ => s.isBatchLocked.getD false

/-- Numeric rendering of a boolean flag, mirroring the flag ? 1 : 0 ternary. -/
def boolBit (b : Bool) : Nat :=
  if b then 1 else 0

/-- Bits of one per-step record: cycle time clamped to 31 in 5 bits, setup time
clamped to 127 in 7 bits, then the two lock flags. -/
def stepBits (s : StepParameters) : List Bool :=
  writeBits (min s.cycleTime 31) 5 ++ writeBits (min s.setupTime 127) 7 ++
    writeBits (boolBit s.isCycleLocked) 1 ++ writeBits (boolBit s.isSetupLocked) 1

/-- generateScenarioCode up to the text transform: the exact sequence of writer calls
of the source, folded over the step list. -/
def generateBits (steps : List StepParameters) (timeUnit : TimeUnit) : List Bool :=
  let b0 := bwWrite [] 1 2
  let b1 := bwWrite b0 (unitIndexOf timeUnit) 2
  let count := min (max steps.length MIN_STEPS) MAX_STEPS
  let b2 := bwWrite b1 (count - MIN_STEPS) 2
  let b3 := bwWrite b2 (min (firstBatchSize steps) 63) 6
  let b4 := bwWrite b3 (boolBit (firstBatchLock steps)) 1
  steps.foldl
    (fun acc s =>
      bwWrite
        (bwWrite (bwWrite (bwWrite acc (min s.cycleTime 31) 5) (min s.setupTime 127) 7)
          (boolBit s.isCycleLocked) 1)
        (boolBit s.isSetupLocked) 1)
    b4

/-- generateScenarioCode: write the header and the per-step records, then run the
text transform. -/
def generateScenarioCode (steps : List StepParameters) (timeUnit : TimeUnit) : String :=
  String.mk (binaryStringToBase64 (generateBits steps timeUnit))

/-- The per-step read loop of parseScenarioCode: stepCount records of
cycle time (5 bits), setup time (7 bits), cycle lock (1 bit), setup lock (1 bit). -/
def readSteps : Nat → BitReader → Option (List ScenarioStep × BitReader)
  | 0, r => some ([], r)
  | n + 1, r =>
    (rdRead 5 r).bind fun (ct, r1) =>
    (rdRead 7 r1).bind fun (st, r2) =>
    (rdRead 1 r2).bind fun (cl, r3) =>
    (rdRead 1 r3).bind fun (sl, r4) =>
    (readSteps n r4).map fun (rest, r5) =>
      (⟨ct, st, cl == 1, sl == 1⟩ :: rest, r5)

/-- parseScenarioCode after the text transform: read the header fields in order with
the version and time-unit gates, then the per-step records. -/
def parseBinary (binary : List Bool) : Option ScenarioData :=
  (rdRead 2 ⟨binary, 0⟩).bind fun (version, r1) =>
  if version ≠ 1 then none else
  (rdRead 2 r1).bind fun (unitVal, r2) =>
  if 2 < unitVal then none else
  (rdRead 2 r2).bind fun (countOffset, r3) =>
  (rdRead 6 r3).bind fun (gbs, r4) =>
  (rdRead 1 r4).bind fun (gbl, r5) =>
  (readSteps (countOffset + MIN_STEPS) r5).map fun (stepsData, _) =>
    ⟨timeUnitsArr.getD unitVal .Seconds, stepsData, gbs, gbl == 1⟩

/-- Whitespace class of the JS regular expression backslash-s, as used by the token
cleanup: the ECMAScript WhiteSpace characters (tab, vertical tab, form feed, space,
no-break space, zero-width no-break space and the Unicode space separators 1680,
2000 to 200A, 202F, 205F, 3000) together with the LineTerminator characters
(line feed, carriage return, line separator 2028, paragraph separator 2029). -/
def jsSpace (c : Char) : Bool :=
  c == ' ' || c == '\t' || c == '\n' || c == '\r' || c == '\x0b' || c == '\x0c' ||
    c == '\u00A0' || c == '\u1680' ||
    (0x2000 ≤ c.toNat && c.toNat ≤ 0x200A) ||
    c == '\u2028' || c == '\u2029' || c == '\u202F' || c == '\u205F' ||
    c == '\u3000' || c == '\uFEFF'

/-- Token cleanup of parseScenarioCode: trim plus global whitespace removal, which
together delete every whitespace character. -/
def cleanToken (cs : List Char) : List Char :=
  cs.filter (fun c => !jsSpace c)

/-- parseScenarioCode: clean the token, reject an empty result, run the text
transform and the schema reads; every internal failure collapses to none. -/
def parseScenarioCode (code : String) : Option ScenarioData :=
  let cleanCode := cleanToken code.data
  if cleanCode = [] then none
  else
    match base64ToBinaryString cleanCode with
    | none => none
    | some binary => parseBinary binary

/-- Clamped image of an input step under encode followed by decode. -/
def clampStep (s : StepParameters) : ScenarioStep :=
  ⟨min s.cycleTime 31, min s.setupTime 127, s.isCycleLocked, s.isSetupLocked⟩

/-- Reinterpretation of a decoded step as encoder input: a ScenarioData step carries
no batch fields, so reading them in JS yields undefined, modelled as none. -/
def stepOfScenario (s : ScenarioStep) : StepParameters :=
  ⟨none, none, s.cycleTime, s.setupTime, s.isCycleLocked, s.isSetupLocked⟩

/-- Number of bits the schema needs for the step count announced in the header
bits 4 and 5: the 13 header bits plus 14 bits per step. -/
def requiredBits (binary : List Bool) : Nat :=
  13 + (bitsToNat ((binary.drop 4).take 2) + MIN_STEPS) * 14

/-- Validity of a raw bit string for parseBinary: version field 1, time-unit index
at most 2, and enough bits for the announced step count. -/
def binaryValid (binary : List Bool) : Bool :=
  (bitsToNat (binary.take 2) == 1) &&
    decide (bitsToNat ((binary.drop 2).take 2) ≤ 2) &&
    decide (requiredBits binary ≤ binary.length)

/-- Validity of a full token: nonempty after cleanup, every character in the
alphabet, and a valid bit string. -/
def tokenValid (code : String) : Bool :=
  let cleanCode := cleanToken code.data
  !cleanCode.isEmpty &&
    match base64ToBinaryString cleanCode with
    | none => false
    | some binary => binaryValid binary

/-! Foundational lemmas about bit values. -/

lemma bitsToNat_foldl (l : List Bool) :
    ∀ acc : Nat, l.foldl (fun a b => 2 * a + (if b then 1 else 0)) acc =
      acc * 2 ^ l.length + bitsToNat l := by
  induction l with
  | nil => intro acc; simp [bitsToNat]
  | cons x xs ih =>
    intro acc
    rw [show (x :: xs).foldl (fun a b => 2 * a + (if b then 1 else 0)) acc =
          xs.foldl (fun a b => 2 * a + (if b then 1 else 0)) (2 * acc + (if x then 1 else 0))
        from rfl]
    rw [ih (2 * acc + if x then 1 else 0)]
    rw [show bitsToNat (x :: xs) =
          xs.foldl (fun a b => 2 * a + (if b then 1 else 0)) (2 * 0 + (if x then 1 else 0))
        from rfl]
    rw [ih (2 * 0 + if x then 1 else 0)]
    simp only [List.length_cons]
    ring

lemma bitsToNat_cons (x : Bool) (l : List Bool) :
    bitsToNat (x :: l) = (if x then 1 else 0) * 2 ^ l.length + bitsToNat l := by
  have h := bitsToNat_foldl l (2 * 0 + if x then 1 else 0)
  rw [show bitsToNat (x :: l) =
        l.foldl (fun a b => 2 * a + (if b then 1 else 0)) (2 * 0 + if x then 1 else 0)
      from rfl, h]
  ring

lemma bitsToNat_append (a b : List Bool) :
    bitsToNat (a ++ b) = bitsToNat a * 2 ^ b.length + bitsToNat b := by
  simp only [bitsToNat, List.foldl_append]
  rw [bitsToNat_foldl]
  rfl

lemma bitsToNat_lt (l : List Bool) : bitsToNat l < 2 ^ l.length := by
  induction l with
  | nil => simp [bitsToNat]
  | cons x xs ih =>
    rw [bitsToNat_cons, List.length_cons, pow_succ]
    cases x <;> simp <;> omega

lemma bitsToNat_replicate_false (n : Nat) : bitsToNat (List.replicate n false) = 0 := by
  induction n with
  | zero => rfl
  | succ m ih => rw [List.replicate_succ, bitsToNat_cons, ih]; simp

lemma bitsToNat_padZeros (w : Nat) (l : List Bool) :
    bitsToNat (padZeros w l) = bitsToNat l := by
  rw [padZeros, bitsToNat_append, bitsToNat_replicate_false]
  simp

lemma padZeros_length (w : Nat) (l : List Bool) (h : l.length ≤ w) :
    (padZeros w l).length = w := by
  simp [padZeros]
  omega

lemma natToBitsAux_spec :
    ∀ fuel n, n ≤ fuel →
      bitsToNat (natToBitsAux fuel n) = n ∧
      n < 2 ^ (natToBitsAux fuel n).length ∧
      (n ≠ 0 → 2 ^ ((natToBitsAux fuel n).length - 1) ≤ n) := by
  intro fuel
  induction fuel with
  | zero =>
    intro n h
    have hn : n = 0 := by omega
    subst hn
    simp [natToBitsAux, bitsToNat]
  | succ f ih =>
    intro n h
    by_cases h0 : n = 0
    · subst h0; simp [natToBitsAux, bitsToNat]
    · have hstep : natToBitsAux (f + 1) n =
          natToBitsAux f (n / 2) ++ [decide (n % 2 = 1)] := by
        simp [natToBitsAux, h0]
      have hd : n / 2 ≤ f := by omega
      obtain ⟨ih1, ih2, ih3⟩ := ih (n / 2) hd
      have hbit : (if (decide (n % 2 = 1) : Bool) then 1 else 0) = n % 2 := by
        rcases Nat.mod_two_eq_zero_or_one n with h2 | h2 <;> simp [h2]
      have hone : bitsToNat [decide (n % 2 = 1)] = n % 2 := by
        rw [bitsToNat_cons]; simpa [bitsToNat] using hbit
      constructor
      · rw [hstep, bitsToNat_append, hone, ih1]
        simp
        omega
      · constructor
        · rw [hstep, List.length_append]
          simp only [List.length_cons, List.length_nil]
          have hpow : 2 ^ ((natToBitsAux f (n / 2)).length + 1) =
              2 * 2 ^ (natToBitsAux f (n / 2)).length := by ring
          rw [hpow]
          omega
        · intro _
          rw [hstep, List.length_append]
          simp only [List.length_cons, List.length_nil]
          by_cases hh : n / 2 = 0
          · have hn1 : n = 1 := by omega
            subst hn1
            have hz : natToBitsAux f (1 / 2) = [] := by
              cases f <;> simp [natToBitsAux]
            rw [hz]
            simp
          · have := ih3 hh
            have hlpos : 1 ≤ (natToBitsAux f (n / 2)).length := by
              by_contra hc
              have : (natToBitsAux f (n / 2)).length = 0 := by omega
              rw [this] at ih2
              simp at ih2
              omega
            have heq : (natToBitsAux f (n / 2)).length + 1 - 1 =
                ((natToBitsAux f (n / 2)).length - 1) + 1 := by omega
            rw [heq, pow_succ]
            omega

lemma bitsToNat_natToBits (n : Nat) : bitsToNat (natToBits n) = n := by
  by_cases h : n = 0
  · subst h; simp [natToBits, bitsToNat]
  · rw [natToBits, if_neg h]
    exact (natToBitsAux_spec n n le_rfl).1

lemma natToBits_lt (n : Nat) : n < 2 ^ (natToBits n).length := by
  by_cases h : n = 0
  · subst h; simp [natToBits]
  · rw [natToBits, if_neg h]
    exact (natToBitsAux_spec n n le_rfl).2.1

lemma natToBits_length_le (n w : Nat) (hw : 0 < w) (h : n < 2 ^ w) :
    (natToBits n).length ≤ w := by
  by_cases h0 : n = 0
  · subst h0; simp [natToBits]; omega
  · by_contra hc
    push_neg at hc
    have hlow : 2 ^ ((natToBits n).length - 1) ≤ n := by
      rw [natToBits, if_neg h0]
      exact (natToBitsAux_spec n n le_rfl).2.2 h0
    have hmono : 2 ^ w ≤ 2 ^ ((natToBits n).length - 1) :=
      Nat.pow_le_pow_right (by omega) (by omega)
    omega

lemma bitsToNat_drop (l : List Bool) (k : Nat) :
    bitsToNat (l.drop k) = bitsToNat l % 2 ^ (l.drop k).length := by
  have h := bitsToNat_append (l.take k) (l.drop k)
  rw [List.take_append_drop] at h
  have h2 : (bitsToNat (l.take k) * 2 ^ (l.drop k).length + bitsToNat (l.drop k)) %
      2 ^ (l.drop k).length = bitsToNat (l.drop k) % 2 ^ (l.drop k).length := by
    conv_lhs => rw [Nat.mul_comm]
    exact Nat.mul_add_mod _ _ _
  rw [h, h2, Nat.mod_eq_of_lt (bitsToNat_lt _)]

lemma writeBits_length (v w : Nat) : (writeBits v w).length = w := by
  rw [writeBits]
  split
  · rename_i h
    apply padZeros_length
    rw [List.length_drop]
    omega
  · rename_i h
    apply padZeros_length
    omega

lemma bitsToNat_writeBits (v w : Nat) : bitsToNat (writeBits v w) = v % 2 ^ w := by
  rw [writeBits]
  split
  · rename_i h
    rw [bitsToNat_padZeros, bitsToNat_drop, bitsToNat_natToBits, List.length_drop]
    have : (natToBits v).length - ((natToBits v).length - w) = w := by omega
    rw [this]
  · rename_i h
    push_neg at h
    rw [bitsToNat_padZeros, bitsToNat_natToBits]
    have hlt : v < 2 ^ w :=
      lt_of_lt_of_le (natToBits_lt v) (Nat.pow_le_pow_right (by omega) h)
    exact (Nat.mod_eq_of_lt hlt).symm

lemma bitsToNat_writeBits_lt (v w : Nat) (h : v < 2 ^ w) :
    bitsToNat (writeBits v w) = v := by
  rw [bitsToNat_writeBits, Nat.mod_eq_of_lt h]

/-! Alphabet and text-transform lemmas. -/

lemma charIndex_getD : ∀ i, i < 64 → charIndex (CHARS.getD i 'A') = some i := by decide

lemma sixBits_length : ∀ i, i < 64 → (sixBits i).length = 6 := by decide

lemma bitsToNat_sixBits : ∀ i, i < 64 → bitsToNat (sixBits i) = i := by decide

lemma CHARS_getD_not_space : ∀ i, i < 64 → jsSpace (CHARS.getD i 'A') = false := by decide

lemma bitsToNat_inj :
    ∀ (a b : List Bool), a.length = b.length → bitsToNat a = bitsToNat b → a = b := by
  intro a
  induction a with
  | nil =>
    intro b hl _
    cases b with
    | nil => rfl
    | cons y ys => simp at hl
  | cons x xs ih =>
    intro b hl hv
    cases b with
    | nil => simp at hl
    | cons y ys =>
      simp only [List.length_cons, Nat.add_right_cancel_iff] at hl
      rw [bitsToNat_cons, bitsToNat_cons, hl] at hv
      have hx := bitsToNat_lt xs
      have hy := bitsToNat_lt ys
      rw [hl] at hx
      have hxy : x = y ∧ bitsToNat xs = bitsToNat ys := by
        cases x <;> cases y <;> simp at hv ⊢ <;> omega
      rw [hxy.1, ih ys hl hxy.2]

lemma sixBits_bitsToNat (g : List Bool) (h : g.length = 6) :
    sixBits (bitsToNat g) = g := by
  have hlt : bitsToNat g < 64 := by
    have := bitsToNat_lt g
    rw [h] at this
    exact this
  apply bitsToNat_inj
  · rw [sixBits_length (bitsToNat g) hlt, h]
  · rw [bitsToNat_sixBits (bitsToNat g) hlt]

lemma chunksAux_spec :
    ∀ fuel (l : List Bool), l.length ≤ fuel → l.length % 6 = 0 →
      (∀ g ∈ chunksAux fuel l, g.length = 6) ∧ (chunksAux fuel l).flatten = l := by
  intro fuel
  induction fuel with
  | zero =>
    intro l hf _
    have : l = [] := List.eq_nil_of_length_eq_zero (by omega)
    subst this
    simp [chunksAux]
  | succ f ih =>
    intro l hf hm
    by_cases he : l = []
    · subst he; simp [chunksAux]
    · have hne : l.isEmpty = false := by
        cases l with
        | nil => exact absurd rfl he
        | cons a as => rfl
      have hlen : 6 ≤ l.length := by
        have : l.length ≠ 0 := fun h => he (List.eq_nil_of_length_eq_zero h)
        omega
      have hdrop : (l.drop 6).length = l.length - 6 := List.length_drop 6 l
      obtain ⟨ih1, ih2⟩ := ih (l.drop 6) (by omega) (by omega)
      rw [chunksAux, hne]
      simp only [Bool.false_eq_true, if_false]
      constructor
      · intro g hg
        cases hg with
        | head => exact List.length_take_of_le hlen
        | tail _ hmem => exact ih1 g hmem
      · rw [show (List.take 6 l :: chunksAux f (List.drop 6 l)).flatten =
              List.take 6 l ++ (chunksAux f (List.drop 6 l)).flatten from rfl, ih2]
        exact List.take_append_drop 6 l

lemma decode_chunks :
    ∀ gs : List (List Bool), (∀ g ∈ gs, g.length = 6) →
      base64ToBinaryString (gs.map fun g => CHARS.getD (bitsToNat g) 'A') = some gs.flatten := by
  intro gs
  induction gs with
  | nil => intro _; rfl
  | cons g rest ih =>
    intro h
    have hg : g.length = 6 := h g (List.mem_cons_self g rest)
    have hlt : bitsToNat g < 64 := by
      have := bitsToNat_lt g
      rw [hg] at this
      exact this
    have hrest : ∀ x ∈ rest, x.length = 6 := fun x hx => h x (List.mem_cons_of_mem g hx)
    simp only [List.map_cons, base64ToBinaryString, charIndex_getD (bitsToNat g) hlt,
      ih hrest, Option.map_some]
    rw [sixBits_bitsToNat g hg]
    rfl

lemma padTo6_length (b : List Bool) :
    (padTo6 b).length = b.length + (6 - b.length % 6) % 6 := by
  simp [padTo6]

lemma padTo6_mod (b : List Bool) : (padTo6 b).length % 6 = 0 := by
  rw [padTo6_length]
  omega

lemma base64_roundtrip_raw (b : List Bool) :
    base64ToBinaryString (binaryStringToBase64 b) = some (padTo6 b) := by
  obtain ⟨h6, hj⟩ := chunksAux_spec (padTo6 b).length (padTo6 b) le_rfl (padTo6_mod b)
  rw [binaryStringToBase64]
  rw [decode_chunks _ h6, hj]

lemma base64_chars_not_space (b : List Bool) :
    ∀ c ∈ binaryStringToBase64 b, jsSpace c = false := by
  intro c hc
  obtain ⟨h6, _⟩ := chunksAux_spec (padTo6 b).length (padTo6 b) le_rfl (padTo6_mod b)
  rw [binaryStringToBase64] at hc
  obtain ⟨g, hg, hgc⟩ := List.mem_map.mp hc
  have hlt : bitsToNat g < 64 := by
    have := bitsToNat_lt g
    rw [h6 g hg] at this
    exact this
  rw [← hgc]
  exact CHARS_getD_not_space (bitsToNat g) hlt

lemma cleanToken_of_not_space (cs : List Char) (h : ∀ c ∈ cs, jsSpace c = false) :
    cleanToken cs = cs := by
  rw [cleanToken]
  apply List.filter_eq_self.mpr
  intro c hc
  rw [h c hc]
  rfl

lemma binaryStringToBase64_ne_nil (b : List Bool) (h : b ≠ []) :
    binaryStringToBase64 b ≠ [] := by
  rw [binaryStringToBase64]
  have hlen : 1 ≤ (padTo6 b).length := by
    have : b.length ≠ 0 := fun hh => h (List.eq_nil_of_length_eq_zero hh)
    rw [padTo6_length]
    omega
  have hne : (padTo6 b).isEmpty = false := by
    cases hp : padTo6 b with
    | nil => rw [hp] at hlen; simp at hlen
    | cons a as => rfl
  cases hfuel : (padTo6 b).length with
  | zero => omega
  | succ m =>
    rw [chunksAux, hne]
    simp

/-! BitReader lemmas. -/

lemma rdRead_of_le (w : Nat) (bits : List Bool) (p : Nat) (h : p + w ≤ bits.length) :
    rdRead w ⟨bits, p⟩ = some (bitsToNat ((bits.drop p).take w), ⟨bits, p + w⟩) := by
  have hc : ¬ ((⟨bits, p⟩ : BitReader).bits.length < (⟨bits, p⟩ : BitReader).pointer + w) := by
    show ¬ (bits.length < p + w)
    omega
  rw [rdRead, if_neg hc]

lemma rdRead_none (w : Nat) (bits : List Bool) (p : Nat) (h : bits.length < p + w) :
    rdRead w ⟨bits, p⟩ = none := by
  have hc : (⟨bits, p⟩ : BitReader).bits.length < (⟨bits, p⟩ : BitReader).pointer + w := by
    show bits.length < p + w
    exact h
  rw [rdRead, if_pos hc]

lemma rdRead_step {bits chunk tail : List Bool} {p w : Nat} (hw : 0 < w)
    (hsplit : bits.drop p = chunk ++ tail) (hlen : chunk.length = w) :
    rdRead w ⟨bits, p⟩ = some (bitsToNat chunk, ⟨bits, p + w⟩) ∧
      bits.drop (p + w) = tail := by
  have hdl : (bits.drop p).length = bits.length - p := List.length_drop p bits
  have hlen2 : bits.length - p = w + tail.length := by
    rw [← hdl, hsplit, List.length_append, hlen]
  have hple : p + w ≤ bits.length := by
    rcases le_or_lt p bits.length with hp | hp
    · omega
    · exfalso
      have : bits.drop p = [] := List.drop_eq_nil_of_le (by omega)
      rw [this] at hsplit
      have := congrArg List.length hsplit
      simp [hlen] at this
      omega
  constructor
  · rw [rdRead_of_le w bits p hple, hsplit, ← hlen, List.take_left]
  · have h1 : bits.drop (p + w) = (bits.drop p).drop w := by
      rw [List.drop_drop, Nat.add_comm]
    rw [h1, hsplit, ← hlen, List.drop_left]

lemma rdRead_some_inv {w : Nat} {r : BitReader} {v : Nat} {r' : BitReader}
    (h : rdRead w r = some (v, r')) :
    r'.bits = r.bits ∧ r'.pointer = r.pointer + w ∧ r.pointer + w ≤ r.bits.length ∧
      v = bitsToNat ((r.bits.drop r.pointer).take w) := by
  rw [rdRead] at h
  split at h
  · exact absurd h (by simp)
  · rename_i hc
    push_neg at hc
    rw [Option.some.injEq, Prod.mk.injEq] at h
    obtain ⟨hv, hr⟩ := h
    rw [← hr, ← hv]
    exact ⟨rfl, rfl, hc, rfl⟩

/-! Lemmas about the per-step read loop. -/

lemma readSteps_succ (m : Nat) (r : BitReader) :
    readSteps (m + 1) r =
      (rdRead 5 r).bind fun (ct, r1) =>
      (rdRead 7 r1).bind fun (st, r2) =>
      (rdRead 1 r2).bind fun (cl, r3) =>
      (rdRead 1 r3).bind fun (sl, r4) =>
      (readSteps m r4).map fun (rest, r5) =>
        (⟨ct, st, cl == 1, sl == 1⟩ :: rest, r5) := rfl

lemma bitsToNat_take_lt (l : List Bool) (p w : Nat) :
    bitsToNat ((l.drop p).take w) < 2 ^ w := by
  have h1 : ((l.drop p).take w).length ≤ w := List.length_take_le w (l.drop p)
  exact lt_of_lt_of_le (bitsToNat_lt _) (Nat.pow_le_pow_right (by omega) h1)

lemma readSteps_some :
    ∀ (n : Nat) (bits : List Bool) (p : Nat), p + 14 * n ≤ bits.length →
      ∃ out : List ScenarioStep,
        readSteps n ⟨bits, p⟩ = some (out, ⟨bits, p + 14 * n⟩) ∧
        out.length = n ∧
        ∀ s ∈ out, s.cycleTime < 32 ∧ s.setupTime < 128 := by
  intro n
  induction n with
  | zero =>
    intro bits p _
    refine ⟨[], ?_, rfl, by simp⟩
    simp [readSteps]
  | succ m ih =>
    intro bits p h
    obtain ⟨out, hout, hlen, hbnd⟩ := ih bits (p + 14) (by omega)
    rw [show p + 14 + 14 * m = p + 14 * (m + 1) from by ring] at hout
    refine ⟨⟨bitsToNat ((bits.drop p).take 5), bitsToNat ((bits.drop (p + 5)).take 7),
      bitsToNat ((bits.drop (p + 12)).take 1) == 1,
      bitsToNat ((bits.drop (p + 13)).take 1) == 1⟩ :: out, ?_, by simp [hlen], ?_⟩
    · simp only [readSteps_succ,
        rdRead_of_le 5 bits p (by omega), Option.some_bind,
        rdRead_of_le 7 bits (p + 5) (by omega),
        rdRead_of_le 1 bits (p + 12) (by omega),
        rdRead_of_le 1 bits (p + 13) (by omega),
        hout]
      rfl
    · intro s hs
      cases hs with
      | head =>
        exact ⟨bitsToNat_take_lt bits p 5, bitsToNat_take_lt bits (p + 5) 7⟩
      | tail _ hmem => exact hbnd s hmem

lemma readSteps_none :
    ∀ (n : Nat) (bits : List Bool) (p : Nat), 0 < n → bits.length < p + 14 * n →
      readSteps n ⟨bits, p⟩ = none := by
  intro n
  induction n with
  | zero => intro _ _ h; omega
  | succ m ih =>
    intro bits p _ h
    by_cases h5 : p + 5 ≤ bits.length
    · by_cases h12 : p + 12 ≤ bits.length
      · by_cases h13 : p + 13 ≤ bits.length
        · by_cases h14 : p + 14 ≤ bits.length
          · have hm : 0 < m := by omega
            simp only [readSteps_succ,
              rdRead_of_le 5 bits p h5, Option.some_bind,
              rdRead_of_le 7 bits (p + 5) h12,
              rdRead_of_le 1 bits (p + 12) h13,
              rdRead_of_le 1 bits (p + 13) h14,
              ih bits (p + 14) hm (by omega)]
            rfl
          · simp only [readSteps_succ,
              rdRead_of_le 5 bits p h5, Option.some_bind,
              rdRead_of_le 7 bits (p + 5) h12,
              rdRead_of_le 1 bits (p + 12) h13,
              rdRead_none 1 bits (p + 13) (by omega)]
            rfl
        · simp only [readSteps_succ,
            rdRead_of_le 5 bits p h5, Option.some_bind,
            rdRead_of_le 7 bits (p + 5) h12,
            rdRead_none 1 bits (p + 12) (by omega)]
          rfl
      · simp only [readSteps_succ,
          rdRead_of_le 5 bits p h5, Option.some_bind,
          rdRead_none 7 bits (p + 5) (by omega)]
        rfl
    · simp only [readSteps_succ, rdRead_none 5 bits p (by omega)]
      rfl

lemma readSteps_some_inv :
    ∀ (n : Nat) (r : BitReader) (out : List ScenarioStep) (r' : BitReader),
      readSteps n r = some (out, r') →
      out.length = n ∧ r'.bits = r.bits ∧ r'.pointer = r.pointer + 14 * n ∧
        (0 < n → r.pointer + 14 * n ≤ r.bits.length) ∧
        ∀ s ∈ out, s.cycleTime < 32 ∧ s.setupTime < 128 := by
  intro n
  induction n with
  | zero =>
    intro r out r' h
    rw [readSteps] at h
    rw [Option.some.injEq, Prod.mk.injEq] at h
    obtain ⟨ho, hr⟩ := h
    rw [← ho, ← hr]
    refine ⟨rfl, rfl, by omega, by omega, by simp⟩
  | succ m ih =>
    intro r out r' h
    rw [readSteps_succ] at h
    cases h1 : rdRead 5 r with
    | none => rw [h1] at h; exact absurd h (by simp)
    | some v1 =>
      obtain ⟨ct, r1⟩ := v1
      simp only [h1, Option.some_bind] at h
      cases h2 : rdRead 7 r1 with
      | none => rw [h2] at h; exact absurd h (by simp)
      | some v2 =>
        obtain ⟨st, r2⟩ := v2
        simp only [h2, Option.some_bind] at h
        cases h3 : rdRead 1 r2 with
        | none => rw [h3] at h; exact absurd h (by simp)
        | some v3 =>
          obtain ⟨cl, r3⟩ := v3
          simp only [h3, Option.some_bind] at h
          cases h4 : rdRead 1 r3 with
          | none => rw [h4] at h; exact absurd h (by simp)
          | some v4 =>
            obtain ⟨sl, r4⟩ := v4
            simp only [h4, Option.some_bind] at h
            cases h5 : readSteps m r4 with
            | none => rw [h5] at h; exact absurd h (by simp)
            | some v5 =>
              obtain ⟨rest, r5⟩ := v5
              rw [h5] at h
              have h' : ((⟨ct, st, cl == 1, sl == 1⟩ : ScenarioStep) :: rest, r5) =
                  (out, r') := Option.some.inj h
              have ho : (⟨ct, st, cl == 1, sl == 1⟩ : ScenarioStep) :: rest = out :=
                congrArg Prod.fst h'
              have hr : r5 = r' := congrArg Prod.snd h'
              obtain ⟨hb1, hp1, hle1, hv1⟩ := rdRead_some_inv h1
              obtain ⟨hb2, hp2, hle2, hv2⟩ := rdRead_some_inv h2
              obtain ⟨hb3, hp3, hle3, hv3⟩ := rdRead_some_inv h3
              obtain ⟨hb4, hp4, hle4, hv4⟩ := rdRead_some_inv h4
              obtain ⟨hlen5, hb5, hp5, hle5, hbnd5⟩ := ih r4 rest r5 h5
              have hle14 : r.pointer + 14 ≤ r.bits.length := by
                rw [hb3, hb2, hb1] at hle4
                rw [hp3, hp2, hp1] at hle4
                omega
              refine ⟨?_, ?_, ?_, ?_, ?_⟩
              · rw [← ho]; simp [hlen5]
              · rw [← hr, hb5, hb4, hb3, hb2, hb1]
              · rw [← hr, hp5, hp4, hp3, hp2, hp1]; ring
              · intro _
                by_cases hm : 0 < m
                · have hc := hle5 hm
                  rw [hb4, hb3, hb2, hb1] at hc
                  rw [hp4, hp3, hp2, hp1] at hc
                  omega
                · have hm0 : m = 0 := by omega
                  subst hm0
                  omega
              · intro s hs
                rw [← ho] at hs
                cases hs with
                | head =>
                  constructor
                  · rw [hv1]; exact bitsToNat_take_lt r.bits r.pointer 5
                  · rw [hv2, hb1]; exact bitsToNat_take_lt r.bits r1.pointer 7
                | tail _ hmem => exact hbnd5 s hmem

lemma boolBit_lt_two (x : Bool) : boolBit x < 2 := by
  cases x <;> simp [boolBit]

lemma boolBit_beq_one (x : Bool) : (boolBit x == 1) = x := by
  cases x <;> rfl

lemma unitIndexOf_le (u : TimeUnit) : unitIndexOf u ≤ 2 := by
  cases u <;> simp [unitIndexOf]

lemma timeUnitsArr_getD (u : TimeUnit) :
    timeUnitsArr.getD (unitIndexOf u) .Seconds = u := by
  cases u <;> rfl

/-! Characterization of parseBinary. -/

lemma parseBinary_valid_some (b : List Bool)
    (h1 : bitsToNat (b.take 2) = 1)
    (h2 : bitsToNat ((b.drop 2).take 2) ≤ 2)
    (h3 : requiredBits b ≤ b.length) :
    ∃ d : ScenarioData, parseBinary b = some d ∧
      d.timeUnit = timeUnitsArr.getD (bitsToNat ((b.drop 2).take 2)) .Seconds ∧
      d.steps.length = bitsToNat ((b.drop 4).take 2) + MIN_STEPS ∧
      d.globalBatchSize = bitsToNat ((b.drop 6).take 6) ∧
      d.globalBatchLocked = (bitsToNat ((b.drop 12).take 1) == 1) ∧
      ∀ s ∈ d.steps, s.cycleTime < 32 ∧ s.setupTime < 128 := by
  have hreq : 13 + (bitsToNat ((b.drop 4).take 2) + MIN_STEPS) * 14 ≤ b.length := h3
  have hlen : 41 ≤ b.length := by
    have hc := Nat.zero_le (bitsToNat ((b.drop 4).take 2))
    rw [MIN_STEPS] at hreq
    omega
  obtain ⟨out, hout, holen, hobnd⟩ :=
    readSteps_some (bitsToNat ((b.drop 4).take 2) + MIN_STEPS) b 13
      (by rw [MIN_STEPS] at hreq ⊢; omega)
  have hu : ¬ (2 < bitsToNat ((b.drop 2).take 2)) := by omega
  refine ⟨⟨timeUnitsArr.getD (bitsToNat ((b.drop 2).take 2)) .Seconds, out,
    bitsToNat ((b.drop 6).take 6), bitsToNat ((b.drop 12).take 1) == 1⟩,
    ?_, rfl, by simp [holen], rfl, rfl, hobnd⟩
  simp [parseBinary,
    rdRead_of_le 2 b 0 (by omega),
    rdRead_of_le 2 b 2 (by omega),
    rdRead_of_le 2 b 4 (by omega),
    rdRead_of_le 6 b 6 (by omega),
    rdRead_of_le 1 b 12 (by omega),
    h1, hu, hout]

lemma parseBinary_some_inv (b : List Bool) (d : ScenarioData)
    (h : parseBinary b = some d) :
    bitsToNat (b.take 2) = 1 ∧ bitsToNat ((b.drop 2).take 2) ≤ 2 ∧
      requiredBits b ≤ b.length ∧
      d.steps.length = bitsToNat ((b.drop 4).take 2) + MIN_STEPS ∧
      d.timeUnit = timeUnitsArr.getD (bitsToNat ((b.drop 2).take 2)) .Seconds ∧
      d.globalBatchSize = bitsToNat ((b.drop 6).take 6) ∧
      d.globalBatchLocked = (bitsToNat ((b.drop 12).take 1) == 1) ∧
      ∀ s ∈ d.steps, s.cycleTime < 32 ∧ s.setupTime < 128 := by
  rw [parseBinary] at h
  cases hv1 : rdRead 2 (⟨b, 0⟩ : BitReader) with
  | none => rw [hv1] at h; exact absurd h (by simp)
  | some p1 =>
    obtain ⟨version, r1⟩ := p1
    simp only [hv1, Option.some_bind] at h
    by_cases hver : version ≠ 1
    · rw [if_pos hver] at h; exact absurd h (by simp)
    · rw [if_neg hver] at h
      push_neg at hver
      cases hv2 : rdRead 2 r1 with
      | none => rw [hv2] at h; exact absurd h (by simp)
      | some p2 =>
        obtain ⟨unitVal, r2⟩ := p2
        simp only [hv2, Option.some_bind] at h
        by_cases hunit : 2 < unitVal
        · rw [if_pos hunit] at h; exact absurd h (by simp)
        · rw [if_neg hunit] at h
          cases hv3 : rdRead 2 r2 with
          | none => rw [hv3] at h; exact absurd h (by simp)
          | some p3 =>
            obtain ⟨countOffset, r3⟩ := p3
            simp only [hv3, Option.some_bind] at h
            cases hv4 : rdRead 6 r3 with
            | none => rw [hv4] at h; exact absurd h (by simp)
            | some p4 =>
              obtain ⟨gbs, r4⟩ := p4
              simp only [hv4, Option.some_bind] at h
              cases hv5 : rdRead 1 r4 with
              | none => rw [hv5] at h; exact absurd h (by simp)
              | some p5 =>
                obtain ⟨gbl, r5⟩ := p5
                simp only [hv5, Option.some_bind] at h
                cases hv6 : readSteps (countOffset + MIN_STEPS) r5 with
                | none => rw [hv6] at h; exact absurd h (by simp)
                | some p6 =>
                  obtain ⟨stepsData, r6⟩ := p6
                  rw [hv6] at h
                  have hd : (⟨timeUnitsArr.getD unitVal .Seconds, stepsData, gbs,
                      gbl == 1⟩ : ScenarioData) = d := Option.some.inj h
                  obtain ⟨hb1, hp1, hle1, hw1⟩ := rdRead_some_inv hv1
                  obtain ⟨hb2, hp2, hle2, hw2⟩ := rdRead_some_inv hv2
                  obtain ⟨hb3, hp3, hle3, hw3⟩ := rdRead_some_inv hv3
                  obtain ⟨hb4, hp4, hle4, hw4⟩ := rdRead_some_inv hv4
                  obtain ⟨hb5, hp5, hle5, hw5⟩ := rdRead_some_inv hv5
                  obtain ⟨hslen, hsb, hsp, hsle, hsbnd⟩ :=
                    readSteps_some_inv (countOffset + MIN_STEPS) r5 stepsData r6 hv6
                  have hrb1 : r1.bits = b := hb1
                  have hrp1 : r1.pointer = 2 := hp1
                  have hrb2 : r2.bits = b := by rw [hb2, hrb1]
                  have hrp2 : r2.pointer = 4 := by rw [hp2, hrp1]
                  have hrb3 : r3.bits = b := by rw [hb3, hrb2]
                  have hrp3 : r3.pointer = 6 := by rw [hp3, hrp2]
                  have hrb4 : r4.bits = b := by rw [hb4, hrb3]
                  have hrp4 : r4.pointer = 12 := by rw [hp4, hrp3]
                  have hrb5 : r5.bits = b := by rw [hb5, hrb4]
                  have hrp5 : r5.pointer = 13 := by rw [hp5, hrp4]
                  have hco : countOffset = bitsToNat ((b.drop 4).take 2) := by
                    rw [hw3, hrb2, hrp2]
                  have hpos : 0 < countOffset + MIN_STEPS := by rw [MIN_STEPS]; omega
                  have hlen : requiredBits b ≤ b.length := by
                    have hs := hsle hpos
                    rw [hrb5, hrp5] at hs
                    rw [requiredBits, ← hco]
                    omega
                  refine ⟨?_, ?_, hlen, ?_, ?_, ?_, ?_, ?_⟩
                  · rw [← hver, hw1]
                    simp
                  · have : unitVal ≤ 2 := by omega
                    rw [hw2, hrb1, hrp1] at this
                    exact this
                  · rw [← hd, ← hco]
                    simp [hslen]
                  · rw [← hd]
                    rw [hw2, hrb1, hrp1]
                  · rw [← hd]
                    rw [hw4, hrb3, hrp3]
                  · rw [← hd]
                    rw [hw5, hrb4, hrp4]
                  · rw [← hd]
                    simpa using hsbnd

lemma parseBinary_none_iff (b : List Bool) :
    parseBinary b = none ↔ binaryValid b = false := by
  constructor
  · intro h
    cases hval : binaryValid b with
    | false => rfl
    | true =>
      exfalso
      rw [binaryValid] at hval
      simp only [Bool.and_eq_true, beq_iff_eq, decide_eq_true_eq] at hval
      obtain ⟨⟨hc1, hc2⟩, hc3⟩ := hval
      obtain ⟨d, hd, _⟩ := parseBinary_valid_some b hc1 hc2 hc3
      rw [h] at hd
      exact Option.noConfusion hd
  · intro h
    cases hp : parseBinary b with
    | none => rfl
    | some d =>
      exfalso
      obtain ⟨hc1, hc2, hc3, _⟩ := parseBinary_some_inv b d hp
      rw [binaryValid] at h
      simp [hc1, hc2, hc3] at h

lemma base64_none_iff :
    ∀ cs : List Char, base64ToBinaryString cs = none ↔ ∃ c ∈ cs, charIndex c = none := by
  intro cs
  induction cs with
  | nil => simp [base64ToBinaryString]
  | cons c rest ih =>
    cases hci : charIndex c with
    | none =>
      simp only [base64ToBinaryString, hci]
      constructor
      · intro _; exact ⟨c, List.mem_cons_self c rest, hci⟩
      · intro _; trivial
    | some i =>
      simp only [base64ToBinaryString, hci]
      constructor
      · intro h
        have hrest : base64ToBinaryString rest = none := by
          cases hr : base64ToBinaryString rest with
          | none => rfl
          | some t => rw [hr] at h; exact absurd h (by simp)
        obtain ⟨c2, hc2, hc2n⟩ := ih.mp hrest
        exact ⟨c2, List.mem_cons_of_mem c hc2, hc2n⟩
      · intro hex
        obtain ⟨c2, hc2, hc2n⟩ := hex
        cases hc2 with
        | head => rw [hci] at hc2n; exact absurd hc2n (by simp)
        | tail _ hmem =>
          have hrest : base64ToBinaryString rest = none := ih.mpr ⟨c2, hmem, hc2n⟩
          rw [hrest]
          rfl

/-! Structure of the generated bit stream. -/

lemma foldl_stepBits :
    ∀ (l : List StepParameters) (init : List Bool),
      l.foldl
        (fun acc s =>
          bwWrite
            (bwWrite (bwWrite (bwWrite acc (min s.cycleTime 31) 5) (min s.setupTime 127) 7)
              (boolBit s.isCycleLocked) 1)
            (boolBit s.isSetupLocked) 1)
        init = init ++ (l.map stepBits).flatten := by
  intro l
  induction l with
  | nil => intro init; simp
  | cons s rest ih =>
    intro init
    simp only [List.foldl_cons, List.map_cons]
    rw [ih]
    simp [bwWrite, stepBits, List.append_assoc]

lemma generateBits_eq (steps : List StepParameters) (u : TimeUnit) :
    generateBits steps u =
      writeBits 1 2 ++ writeBits (unitIndexOf u) 2 ++
        writeBits (min (max steps.length MIN_STEPS) MAX_STEPS - MIN_STEPS) 2 ++
        writeBits (min (firstBatchSize steps) 63) 6 ++
        writeBits (boolBit (firstBatchLock steps)) 1 ++
        (steps.map stepBits).flatten := by
  simp only [generateBits]
  rw [foldl_stepBits]
  simp [bwWrite, List.append_assoc]

lemma stepBits_length (s : StepParameters) : (stepBits s).length = 14 := by
  simp [stepBits, writeBits_length]

lemma flatten_stepBits_length :
    ∀ l : List StepParameters, ((l.map stepBits).flatten).length = 14 * l.length := by
  intro l
  induction l with
  | nil => simp
  | cons s rest ih =>
    simp only [List.map_cons]
    rw [show ((stepBits s :: rest.map stepBits).flatten) =
        stepBits s ++ (rest.map stepBits).flatten from rfl]
    rw [List.length_append, stepBits_length, ih, List.length_cons]
    ring

lemma generateBits_length (steps : List StepParameters) (u : TimeUnit) :
    (generateBits steps u).length = 13 + 14 * steps.length := by
  rw [generateBits_eq]
  simp only [List.length_append, writeBits_length, flatten_stepBits_length]

/-! The per-step loop read back over an encoded record stream. -/

lemma readSteps_spec :
    ∀ (n : Nat) (ss : List StepParameters) (bits tail : List Bool) (p : Nat),
      n ≤ ss.length → bits.drop p = (ss.map stepBits).flatten ++ tail →
      readSteps n ⟨bits, p⟩ = some ((ss.take n).map clampStep, ⟨bits, p + 14 * n⟩) := by
  intro n
  induction n with
  | zero =>
    intro ss bits tail p _ _
    simp [readSteps]
  | succ m ih =>
    intro ss bits tail p hn hsplit
    cases ss with
    | nil => simp at hn
    | cons s rest =>
      have hsplit1 : bits.drop p =
          writeBits (min s.cycleTime 31) 5 ++
            (writeBits (min s.setupTime 127) 7 ++
              (writeBits (boolBit s.isCycleLocked) 1 ++
                (writeBits (boolBit s.isSetupLocked) 1 ++
                  ((rest.map stepBits).flatten ++ tail)))) := by
        rw [hsplit]
        simp [stepBits, List.append_assoc]
      obtain ⟨hr1, hd1⟩ := rdRead_step (by omega) hsplit1 (writeBits_length _ 5)
      obtain ⟨hr2, hd2⟩ := rdRead_step (by omega) hd1 (writeBits_length _ 7)
      obtain ⟨hr3, hd3⟩ := rdRead_step (by omega) hd2 (writeBits_length _ 1)
      obtain ⟨hr4, hd4⟩ := rdRead_step (by omega) hd3 (writeBits_length _ 1)
      have hrec := ih rest bits tail (p + 5 + 7 + 1 + 1) (by simpa using hn) hd4
      have hct : bitsToNat (writeBits (min s.cycleTime 31) 5) = min s.cycleTime 31 :=
        bitsToNat_writeBits_lt _ 5 (by have := Nat.min_le_right s.cycleTime 31; omega)
      have hst : bitsToNat (writeBits (min s.setupTime 127) 7) = min s.setupTime 127 :=
        bitsToNat_writeBits_lt _ 7 (by have := Nat.min_le_right s.setupTime 127; omega)
      have hcl : bitsToNat (writeBits (boolBit s.isCycleLocked) 1) =
          boolBit s.isCycleLocked :=
        bitsToNat_writeBits_lt _ 1 (by have := boolBit_lt_two s.isCycleLocked; omega)
      have hsl : bitsToNat (writeBits (boolBit s.isSetupLocked) 1) =
          boolBit s.isSetupLocked :=
        bitsToNat_writeBits_lt _ 1 (by have := boolBit_lt_two s.isSetupLocked; omega)
      simp only [readSteps_succ, hr1, Option.some_bind, hr2, hr3, hr4, hrec,
        hct, hst, hcl, hsl, boolBit_beq_one]
      rw [show p + 5 + 7 + 1 + 1 + 14 * m = p + 14 * (m + 1) from by ring]
      rw [show (rest.take m).map clampStep = (((s :: rest).take (m + 1)).map clampStep).tail
          from by simp]
      simp [clampStep]

/-! Decoding an encoded stream, below the text transform. -/

lemma parseBinary_generate (steps : List StepParameters) (u : TimeUnit) (tail : List Bool)
    (h2 : MIN_STEPS ≤ steps.length) :
    parseBinary (generateBits steps u ++ tail) =
      some ⟨u, (steps.take (min steps.length MAX_STEPS)).map clampStep,
        min (firstBatchSize steps) 63, firstBatchLock steps⟩ := by
  have hsplit0 : (generateBits steps u ++ tail).drop 0 =
      writeBits 1 2 ++
        (writeBits (unitIndexOf u) 2 ++
          (writeBits (min (max steps.length MIN_STEPS) MAX_STEPS - MIN_STEPS) 2 ++
            (writeBits (min (firstBatchSize steps) 63) 6 ++
              (writeBits (boolBit (firstBatchLock steps)) 1 ++
                ((steps.map stepBits).flatten ++ tail))))) := by
    rw [List.drop_zero, generateBits_eq]
    simp [List.append_assoc]
  obtain ⟨hr1, hd1⟩ := rdRead_step (by omega) hsplit0 (writeBits_length _ 2)
  obtain ⟨hr2, hd2⟩ := rdRead_step (by omega) hd1 (writeBits_length _ 2)
  obtain ⟨hr3, hd3⟩ := rdRead_step (by omega) hd2 (writeBits_length _ 2)
  obtain ⟨hr4, hd4⟩ := rdRead_step (by omega) hd3 (writeBits_length _ 6)
  obtain ⟨hr5, hd5⟩ := rdRead_step (by omega) hd4 (writeBits_length _ 1)
  have hver : bitsToNat (writeBits 1 2) = 1 := bitsToNat_writeBits_lt 1 2 (by omega)
  have hunit : bitsToNat (writeBits (unitIndexOf u) 2) = unitIndexOf u :=
    bitsToNat_writeBits_lt _ 2 (by have := unitIndexOf_le u; omega)
  have hcnt : bitsToNat (writeBits (min (max steps.length MIN_STEPS) MAX_STEPS -
      MIN_STEPS) 2) = min (max steps.length MIN_STEPS) MAX_STEPS - MIN_STEPS :=
    bitsToNat_writeBits_lt _ 2 (by rw [MIN_STEPS, MAX_STEPS]; omega)
  have hbs : bitsToNat (writeBits (min (firstBatchSize steps) 63) 6) =
      min (firstBatchSize steps) 63 :=
    bitsToNat_writeBits_lt _ 6 (by have := Nat.min_le_right (firstBatchSize steps) 63; omega)
  have hbl : bitsToNat (writeBits (boolBit (firstBatchLock steps)) 1) =
      boolBit (firstBatchLock steps) :=
    bitsToNat_writeBits_lt _ 1 (by have := boolBit_lt_two (firstBatchLock steps); omega)
  have hcount : min (max steps.length MIN_STEPS) MAX_STEPS - MIN_STEPS + MIN_STEPS =
      min steps.length MAX_STEPS := by
    simp only [MIN_STEPS, MAX_STEPS] at h2 ⊢
    omega
  have hsteps := readSteps_spec (min steps.length MAX_STEPS) steps
    (generateBits steps u ++ tail) tail (0 + 2 + 2 + 2 + 6 + 1)
    (Nat.min_le_left steps.length MAX_STEPS) hd5
  have hnotu : ¬ (2 < unitIndexOf u) := by
    have := unitIndexOf_le u
    omega
  simp [parseBinary, hr1, hr2, hr3, hr4, hr5, hver, hunit, hcnt, hbs, hbl, hnotu,
    hcount, hsteps, timeUnitsArr_getD, boolBit_beq_one]
  cases u <;> rfl

lemma charIndexAux_some_lt (c : Char) :
    ∀ (l : List Char) (i : Nat), charIndexAux c l = some i → i < l.length := by
  intro l
  induction l with
  | nil => intro i h; exact absurd h (by simp [charIndexAux])
  | cons x rest ih =>
    intro i h
    rw [charIndexAux] at h
    split at h
    · have : i = 0 := by
        rw [Option.some.injEq] at h
        omega
      simp [this]
    · cases hr : charIndexAux c rest with
      | none => rw [hr] at h; exact absurd h (by simp)
      | some j =>
        rw [hr] at h
        have hij : j + 1 = i := by simpa using h
        have := ih j hr
        simp only [List.length_cons]
        omega

lemma charIndex_some_lt (c : Char) (i : Nat) (h : charIndex c = some i) : i < 64 := by
  have hlen : CHARS.length = 64 := by decide
  have := charIndexAux_some_lt c CHARS i h
  omega

lemma parseScenarioCode_mk (cs : List Char) :
    parseScenarioCode (String.mk cs) =
      (if cleanToken cs = [] then none
       else
         match base64ToBinaryString (cleanToken cs) with
         | none => none
         | some binary => parseBinary binary) := rfl

lemma parseScenarioCode_none_iff (code : String) :
    parseScenarioCode code = none ↔ tokenValid code = false := by
  rw [show parseScenarioCode code =
      (if cleanToken code.data = [] then none
       else
         match base64ToBinaryString (cleanToken code.data) with
         | none => none
         | some binary => parseBinary binary) from rfl]
  rw [show tokenValid code =
      (!(cleanToken code.data).isEmpty &&
        match base64ToBinaryString (cleanToken code.data) with
        | none => false
        | some binary => binaryValid binary) from rfl]
  by_cases hc : cleanToken code.data = []
  · rw [if_pos hc, hc]
    simp
  · rw [if_neg hc]
    have hne : (cleanToken code.data).isEmpty = false := by
      cases hcc : cleanToken code.data with
      | nil => exact absurd hcc hc
      | cons a as => rfl
    rw [hne]
    cases hb : base64ToBinaryString (cleanToken code.data) with
    | none => simp
    | some bits => simpa using parseBinary_none_iff bits

/-! The full round trip for step lists of at least MIN_STEPS steps. -/

lemma parse_generate_master (steps : List StepParameters) (u : TimeUnit)
    (h2 : MIN_STEPS ≤ steps.length) :
    parseScenarioCode (generateScenarioCode steps u) =
      some ⟨u, (steps.take (min steps.length MAX_STEPS)).map clampStep,
        min (firstBatchSize steps) 63, firstBatchLock steps⟩ := by
  have hBne : generateBits steps u ≠ [] := by
    intro hnil
    have hlen := generateBits_length steps u
    rw [hnil] at hlen
    simp at hlen
    omega
  have htok := binaryStringToBase64_ne_nil (generateBits steps u) hBne
  have hclean : cleanToken (binaryStringToBase64 (generateBits steps u)) =
      binaryStringToBase64 (generateBits steps u) :=
    cleanToken_of_not_space _ (base64_chars_not_space _)
  rw [generateScenarioCode, parseScenarioCode_mk, hclean, if_neg htok,
    base64_roundtrip_raw]
  exact parseBinary_generate steps u _ h2

/-! Decoding a character-level truncation of a token. -/

lemma base64_take (cs : List Char) :
    ∀ (bits : List Bool), base64ToBinaryString cs = some bits →
      ∀ k, base64ToBinaryString (cs.take k) = some (bits.take (6 * k)) := by
  induction cs with
  | nil =>
    intro bits h k
    have hb : ([] : List Bool) = bits := Option.some.inj h
    rw [← hb]
    simp [base64ToBinaryString]
  | cons c rest ih =>
    intro bits h k
    cases hci : charIndex c with
    | none =>
      simp only [base64ToBinaryString, hci] at h
      exact absurd h (by simp)
    | some i =>
      simp only [base64ToBinaryString, hci] at h
      cases hrest : base64ToBinaryString rest with
      | none => rw [hrest] at h; exact absurd h (by simp)
      | some tl =>
        rw [hrest] at h
        have hb : sixBits i ++ tl = bits := Option.some.inj h
        cases k with
        | zero => simp [base64ToBinaryString]
        | succ m =>
          have hsix : (sixBits i).length = 6 := sixBits_length i (charIndex_some_lt c i hci)
          rw [show (c :: rest).take (m + 1) = c :: rest.take m from rfl]
          simp only [base64ToBinaryString, hci, ih tl hrest m]
          rw [← hb]
          rw [show 6 * (m + 1) = (sixBits i).length + 6 * m from by rw [hsix]; ring]
          rw [List.take_append]
          rfl

lemma generate_count_chunk (steps : List StepParameters) (u : TimeUnit)
    (tail : List Bool) :
    ((generateBits steps u ++ tail).drop 4).take 2 =
      writeBits (min (max steps.length MIN_STEPS) MAX_STEPS - MIN_STEPS) 2 := by
  have he : generateBits steps u ++ tail =
      (writeBits 1 2 ++ writeBits (unitIndexOf u) 2) ++
        (writeBits (min (max steps.length MIN_STEPS) MAX_STEPS - MIN_STEPS) 2 ++
          (writeBits (min (firstBatchSize steps) 63) 6 ++
            (writeBits (boolBit (firstBatchLock steps)) 1 ++
              ((steps.map stepBits).flatten ++ tail)))) := by
    rw [generateBits_eq]
    simp [List.append_assoc]
  have hlen4 : (writeBits 1 2 ++ writeBits (unitIndexOf u) 2).length = 4 := by
    simp [writeBits_length]
  rw [he, List.drop_left' hlen4, List.take_left' (writeBits_length _ 2)]

lemma generateBits_ne_nil (steps : List StepParameters) (u : TimeUnit) :
    generateBits steps u ≠ [] := by
  intro hnil
  have hlen := generateBits_length steps u
  rw [hnil] at hlen
  simp only [List.length_nil] at hlen
  omega

lemma generate_token_ne_nil (steps : List StepParameters) (u : TimeUnit) :
    binaryStringToBase64 (generateBits steps u) ≠ [] :=
  binaryStringToBase64_ne_nil _ (generateBits_ne_nil steps u)

lemma parse_generate_truncated (steps : List StepParameters) (u : TimeUnit) (k : Nat)
    (h2 : MIN_STEPS ≤ steps.length) (h5 : steps.length ≤ MAX_STEPS)
    (hk : k < (13 + steps.length * 14 + 5) / 6) :
    parseScenarioCode
      (String.mk ((binaryStringToBase64 (generateBits steps u)).take k)) = none := by
  have hdiv : (13 + steps.length * 14 + 5) / 6 * 6 ≤ 13 + steps.length * 14 + 5 :=
    Nat.div_mul_le_self _ 6
  have hNle : 6 * k + 1 ≤ 13 + steps.length * 14 := by omega
  by_cases hk0 : k = 0
  · subst hk0
    rw [List.take_zero, parseScenarioCode_mk]
    simp [cleanToken]
  · have hpre_ne : (binaryStringToBase64 (generateBits steps u)).take k ≠ [] := by
      cases htl : binaryStringToBase64 (generateBits steps u) with
      | nil => exact absurd htl (generate_token_ne_nil steps u)
      | cons a as =>
        cases k with
        | zero => exact absurd rfl hk0
        | succ m => simp
    have hcleanp :
        cleanToken ((binaryStringToBase64 (generateBits steps u)).take k) =
          (binaryStringToBase64 (generateBits steps u)).take k :=
      cleanToken_of_not_space _
        (fun c hc => base64_chars_not_space _ c (List.take_subset k _ hc))
    have hdec := base64_take (binaryStringToBase64 (generateBits steps u))
      (padTo6 (generateBits steps u)) (base64_roundtrip_raw _) k
    rw [parseScenarioCode_mk, hcleanp, if_neg hpre_ne, hdec]
    apply (parseBinary_none_iff _).mpr
    have hlenB : (generateBits steps u).length = 13 + 14 * steps.length :=
      generateBits_length steps u
    have hlenP : (padTo6 (generateBits steps u)).length =
        (13 + 14 * steps.length) + (6 - (13 + 14 * steps.length) % 6) % 6 := by
      rw [padTo6_length, hlenB]
    have h6k : 6 * k ≤ (padTo6 (generateBits steps u)).length := by omega
    have hlen' : ((padTo6 (generateBits steps u)).take (6 * k)).length = 6 * k := by
      rw [List.length_take]
      omega
    have hreq : ¬ (requiredBits ((padTo6 (generateBits steps u)).take (6 * k)) ≤
        ((padTo6 (generateBits steps u)).take (6 * k)).length) := by
      rw [hlen']
      rcases le_or_lt 42 (6 * k) with hbig | hsmall
      · have hm : 2 ≤ 6 * k - 4 := by omega
        have hchunk : (((padTo6 (generateBits steps u)).take (6 * k)).drop 4).take 2 =
            ((padTo6 (generateBits steps u)).drop 4).take 2 := by
          rw [List.drop_take, List.take_take, Nat.min_eq_left hm]
        have hcc : ((padTo6 (generateBits steps u)).drop 4).take 2 =
            writeBits (min (max steps.length MIN_STEPS) MAX_STEPS - MIN_STEPS) 2 :=
          generate_count_chunk steps u
            (List.replicate ((6 - (generateBits steps u).length % 6) % 6) false)
        have hval : bitsToNat (writeBits
            (min (max steps.length MIN_STEPS) MAX_STEPS - MIN_STEPS) 2) =
            steps.length - 2 := by
          rw [bitsToNat_writeBits_lt _ 2 (by simp only [MIN_STEPS, MAX_STEPS]; omega)]
          simp only [MIN_STEPS, MAX_STEPS] at h2 h5 ⊢
          omega
        rw [requiredBits, hchunk, hcc, hval]
        simp only [MIN_STEPS] at h2 ⊢
        omega
      · have h41 : 41 ≤ requiredBits ((padTo6 (generateBits steps u)).take (6 * k)) := by
          rw [requiredBits]
          simp only [MIN_STEPS]
          omega
        omega
    rw [binaryValid]
    have hd : decide (requiredBits ((padTo6 (generateBits steps u)).take (6 * k)) ≤
        ((padTo6 (generateBits steps u)).take (6 * k)).length) = false :=
      decide_eq_false hreq
    rw [hd]
    simp

lemma parse_generate_short (steps : List StepParameters) (u : TimeUnit)
    (h : steps.length < MIN_STEPS) :
    parseScenarioCode (generateScenarioCode steps u) = none := by
  have hclean : cleanToken (binaryStringToBase64 (generateBits steps u)) =
      binaryStringToBase64 (generateBits steps u) :=
    cleanToken_of_not_space _ (base64_chars_not_space _)
  rw [generateScenarioCode, parseScenarioCode_mk, hclean,
    if_neg (generate_token_ne_nil steps u), base64_roundtrip_raw]
  apply (parseBinary_none_iff _).mpr
  have h41 : 41 ≤ requiredBits (padTo6 (generateBits steps u)) := by
    rw [requiredBits]
    simp only [MIN_STEPS]
    omega
  have hlen : (padTo6 (generateBits steps u)).length ≤ 32 := by
    rw [padTo6_length, generateBits_length]
    simp only [MIN_STEPS] at h
    omega
  rw [binaryValid]
  have hd : decide (requiredBits (padTo6 (generateBits steps u)) ≤
      (padTo6 (generateBits steps u)).length) = false :=
    decide_eq_false (by omega)
  rw [hd]
  simp

lemma parse_some_binary (code : String) (d : ScenarioData)
    (h : parseScenarioCode code = some d) :
    ∃ b, parseBinary b = some d := by
  rw [show parseScenarioCode code =
      (if cleanToken code.data = [] then none
       else
         match base64ToBinaryString (cleanToken code.data) with
         | none => none
         | some binary => parseBinary binary) from rfl] at h
  by_cases hc : cleanToken code.data = []
  · rw [if_pos hc] at h
    exact absurd h (by simp)
  · rw [if_neg hc] at h
    cases hb : base64ToBinaryString (cleanToken code.data) with
    | none => rw [hb] at h; exact absurd h (by simp)
    | some bits => rw [hb] at h; exact ⟨bits, h⟩

lemma chunksAux_eq_range :
    ∀ (fuel : Nat) (l : List Bool), l.length ≤ fuel → l.length % 6 = 0 →
      chunksAux fuel l =
        (List.range (l.length / 6)).map (fun j => (l.drop (6 * j)).take 6) := by
  intro fuel
  induction fuel with
  | zero =>
    intro l hf _
    have hl : l = [] := List.eq_nil_of_length_eq_zero (by omega)
    subst hl
    simp [chunksAux]
  | succ f ih =>
    intro l hf hm
    by_cases he : l = []
    · subst he
      simp [chunksAux]
    · have hne : l.isEmpty = false := by
        cases l with
        | nil => exact absurd rfl he
        | cons a as => rfl
      have hlen : 6 ≤ l.length := by
        have : l.length ≠ 0 := fun hz => he (List.eq_nil_of_length_eq_zero hz)
        omega
      have hdl : (l.drop 6).length = l.length - 6 := List.length_drop 6 l
      have hrec := ih (l.drop 6) (by omega) (by omega)
      rw [hdl] at hrec
      have htail : List.map (fun j => List.take 6 (List.drop (6 * j) (List.drop 6 l)))
          (List.range ((l.length - 6) / 6)) =
          List.map ((fun j => List.take 6 (List.drop (6 * j) l)) ∘ (fun j => j + 1))
          (List.range ((l.length - 6) / 6)) := by
        apply List.map_congr_left
        intro j _
        simp only [Function.comp_apply]
        rw [List.drop_drop]
        rw [show 6 * (j + 1) = 6 + 6 * j from by ring]
      have hq : l.length / 6 = (l.length - 6) / 6 + 1 := by omega
      rw [chunksAux, hne]
      simp only [Bool.false_eq_true, if_false]
      rw [hrec, htail, hq, List.range_succ_eq_map, List.map_cons, List.map_map]
      simp

/-- Claim C1, counterexample: the claim asserts that a round trip preserves the first
step's batchSize whenever it is at most 63, but a first step with batchSize 0 (which is
within the 6-bit range) decodes to globalBatchSize 10, because the encoder's or-default
treats 0 as falsy. -/
theorem claim1_zero_batch_counterexample :
    parseScenarioCode (generateScenarioCode
      [⟨some 0, some false, 5, 10, false, true⟩, ⟨some 10, some false, 3, 20, true, false⟩]
      TimeUnit.Seconds) =
      some ⟨TimeUnit.Seconds, [⟨5, 10, false, true⟩, ⟨3, 20, true, false⟩], 10, false⟩ ∧
    (10 : Nat) ≠ 0 := by
  constructor
  · decide
  · decide

/-- Claim C1, amended: for every Configuration with step count in [MIN_STEPS, MAX_STEPS],
every cycleTime at most 31 and setupTime at most 127, and a first step whose batchSize is
present, nonzero and at most 63, decoding the encoded token succeeds and preserves the
time unit, the step count, every step's cycleTime, setupTime and both lock flags, with
globalBatchSize and globalBatchLocked taken from the first step; batch fields of the
other steps are not preserved by the format. -/
theorem claim1_roundtrip_amended (steps : List StepParameters) (u : TimeUnit)
    (s0 : StepParameters) (b0 : Nat)
    (hh : steps.head? = some s0)
    (h2 : MIN_STEPS ≤ steps.length) (h5 : steps.length ≤ MAX_STEPS)
    (hb : s0.batchSize = some b0) (hb0 : 0 < b0) (hb63 : b0 ≤ 63)
    (hct : ∀ s ∈ steps, s.cycleTime ≤ 31) (hst : ∀ s ∈ steps, s.setupTime ≤ 127) :
    parseScenarioCode (generateScenarioCode steps u) =
      some ⟨u, steps.map (fun s => ⟨s.cycleTime, s.setupTime, s.isCycleLocked,
        s.isSetupLocked⟩), b0, s0.isBatchLocked.getD false⟩ := by
  cases steps with
  | nil =>
    rw [MIN_STEPS] at h2
    simp at h2
  | cons s rest =>
    have hs0 : s = s0 := by simpa using hh
    subst hs0
    rw [parse_generate_master (s :: rest) u h2, Nat.min_eq_left h5, List.take_length]
    have hfb : firstBatchSize (s :: rest) = b0 := by
      simp only [firstBatchSize, hb]
      rw [if_neg (by omega)]
    have hmap : (s :: rest).map clampStep =
        (s :: rest).map (fun s => (⟨s.cycleTime, s.setupTime, s.isCycleLocked,
          s.isSetupLocked⟩ : ScenarioStep)) := by
      apply List.map_congr_left
      intro t ht
      simp [clampStep, Nat.min_eq_left (hct t ht), Nat.min_eq_left (hst t ht)]
    rw [hfb, Nat.min_eq_left hb63, hmap]
    rfl

/-- Claim C1, amended, witness at a concrete in-range configuration. -/
theorem claim1_roundtrip_amended_witness :
    parseScenarioCode (generateScenarioCode
      [⟨some 10, some false, 5, 10, false, true⟩, ⟨some 10, some false, 3, 20, true, false⟩]
      TimeUnit.Seconds) =
      some ⟨TimeUnit.Seconds,
        ([⟨some 10, some false, 5, 10, false, true⟩,
          ⟨some 10, some false, 3, 20, true, false⟩] : List StepParameters).map
          (fun s => ⟨s.cycleTime, s.setupTime, s.isCycleLocked, s.isSetupLocked⟩),
        10, (some false).getD false⟩ :=
  claim1_roundtrip_amended
    [⟨some 10, some false, 5, 10, false, true⟩, ⟨some 10, some false, 3, 20, true, false⟩]
    TimeUnit.Seconds ⟨some 10, some false, 5, 10, false, true⟩ 10
    (by decide) (by decide) (by decide) (by decide) (by decide) (by decide)
    (by decide) (by decide)

/-- Claim C2, counterexample: the claim asserts that re-encoding a decoded result and
decoding again reproduces that result, but the decoded steps carry no batch fields, so
the second encode falls back to the defaults batchSize 10 and lock false; starting from
a configuration with first batchSize 20 and lock true, the second decode differs from
the first. -/
theorem claim2_reencode_counterexample :
    parseScenarioCode (generateScenarioCode
      [⟨some 20, some true, 5, 10, false, true⟩, ⟨some 10, some false, 3, 20, true, false⟩]
      TimeUnit.Seconds) =
      some ⟨TimeUnit.Seconds, [⟨5, 10, false, true⟩, ⟨3, 20, true, false⟩], 20, true⟩ ∧
    parseScenarioCode (generateScenarioCode
      (([⟨5, 10, false, true⟩, ⟨3, 20, true, false⟩] : List ScenarioStep).map
        stepOfScenario) TimeUnit.Seconds) =
      some ⟨TimeUnit.Seconds, [⟨5, 10, false, true⟩, ⟨3, 20, true, false⟩], 10, false⟩ ∧
    (⟨TimeUnit.Seconds, [⟨5, 10, false, true⟩, ⟨3, 20, true, false⟩], 10, false⟩ :
      ScenarioData) ≠
      ⟨TimeUnit.Seconds, [⟨5, 10, false, true⟩, ⟨3, 20, true, false⟩], 20, true⟩ := by
  refine ⟨by decide, by decide, by decide⟩

/-- Claim C2, amended: re-encoding any decoded result and decoding again preserves the
time unit and the steps exactly, but resets globalBatchSize to the default 10 and
globalBatchLocked to false, since the decoded steps carry no batch fields; consequently
the composition stabilizes from the second application on. -/
theorem claim2_reencode_amended (code : String) (d : ScenarioData)
    (h : parseScenarioCode code = some d) :
    parseScenarioCode (generateScenarioCode (d.steps.map stepOfScenario) d.timeUnit) =
      some ⟨d.timeUnit, d.steps, 10, false⟩ := by
  obtain ⟨b, hb⟩ := parse_some_binary code d h
  obtain ⟨_, _, _, hlen, _, _, _, hbnd⟩ := parseBinary_some_inv b d hb
  have hc4 : bitsToNat ((b.drop 4).take 2) < 4 := bitsToNat_take_lt b 4 2
  have h2 : MIN_STEPS ≤ (d.steps.map stepOfScenario).length := by
    rw [List.length_map, hlen]
    rw [MIN_STEPS]
    omega
  have h5 : (d.steps.map stepOfScenario).length ≤ MAX_STEPS := by
    rw [List.length_map, hlen]
    rw [MIN_STEPS, MAX_STEPS]
    omega
  rw [parse_generate_master (d.steps.map stepOfScenario) d.timeUnit h2,
    Nat.min_eq_left h5, List.take_length]
  have hmap : (d.steps.map stepOfScenario).map clampStep = d.steps := by
    rw [List.map_map]
    have hid : ∀ t ∈ d.steps, (clampStep ∘ stepOfScenario) t = t := by
      intro t ht
      obtain ⟨hctb, hstb⟩ := hbnd t ht
      simp [clampStep, stepOfScenario, Function.comp,
        Nat.min_eq_left (by omega : t.cycleTime ≤ 31),
        Nat.min_eq_left (by omega : t.setupTime ≤ 127)]
    rw [List.map_congr_left hid]
    simp
  rw [hmap]
  have hne : d.steps ≠ [] := by
    intro hnil
    rw [hnil] at hlen
    rw [MIN_STEPS] at hlen
    simp at hlen
  cases hd : d.steps with
  | nil => exact absurd hd hne
  | cons t rest => rfl

/-- Claim C2, amended, witness: re-encoding the decoded result of a concrete token. -/
theorem claim2_reencode_amended_witness :
    parseScenarioCode (generateScenarioCode
      ((⟨TimeUnit.Seconds, [⟨5, 10, false, true⟩, ⟨3, 20, true, false⟩], 10, false⟩ :
        ScenarioData).steps.map stepOfScenario)
      (⟨TimeUnit.Seconds, [⟨5, 10, false, true⟩, ⟨3, 20, true, false⟩], 10, false⟩ :
        ScenarioData).timeUnit) =
      some ⟨(⟨TimeUnit.Seconds, [⟨5, 10, false, true⟩, ⟨3, 20, true, false⟩], 10, false⟩ :
          ScenarioData).timeUnit,
        (⟨TimeUnit.Seconds, [⟨5, 10, false, true⟩, ⟨3, 20, true, false⟩], 10, false⟩ :
          ScenarioData).steps, 10, false⟩ :=
  claim2_reencode_amended "QKFFIyk"
    ⟨TimeUnit.Seconds, [⟨5, 10, false, true⟩, ⟨3, 20, true, false⟩], 10, false⟩
    (by decide)

/-- Claim C3: parseScenarioCode is a total function into an Option; it returns none
exactly when the token is invalid (empty after cleanup, a character outside the
alphabet, or a bit string failing the version gate, the time-unit range check or the
length requirement), so every failure cause collapses to the single invalid outcome
with no partial data; moreover the text transform fails exactly when some cleaned
character is outside the 64-symbol alphabet. -/
theorem claim3_decode_total_uniform (code : String) :
    (parseScenarioCode code = none ↔ tokenValid code = false) ∧
    (base64ToBinaryString (cleanToken code.data) = none ↔
      ∃ c ∈ cleanToken code.data, charIndex c = none) :=
  ⟨parseScenarioCode_none_iff code, base64_none_iff (cleanToken code.data)⟩

/-- Claim C4: whenever the cleaned token survives the text transform but its first two
bits decode to a value other than 1, parseScenarioCode returns the invalid outcome,
regardless of the rest of the token. -/
theorem claim4_version_gate (code : String) (bits : List Bool)
    (hb : base64ToBinaryString (cleanToken code.data) = some bits)
    (hv : bitsToNat (bits.take 2) ≠ 1) :
    parseScenarioCode code = none := by
  rw [show parseScenarioCode code =
      (if cleanToken code.data = [] then none
       else
         match base64ToBinaryString (cleanToken code.data) with
         | none => none
         | some binary => parseBinary binary) from rfl]
  by_cases hc : cleanToken code.data = []
  · rw [if_pos hc]
  · rw [if_neg hc, hb]
    apply (parseBinary_none_iff bits).mpr
    rw [binaryValid]
    have hf : (bitsToNat (bits.take 2) == 1) = false := by
      simp [hv]
    rw [hf]
    simp

/-- Claim C4, witness: a token of all zero bits has version 0 and is rejected. -/
theorem claim4_version_gate_witness : parseScenarioCode "AAAAAAAA" = none :=
  claim4_version_gate "AAAAAAAA" (List.replicate 48 false) (by decide) (by decide)

/-- Claim C5: encoding never rejects out-of-range values; for a step list with count in
[MIN_STEPS, MAX_STEPS] the encoded token always decodes, a step whose cycleTime is 99
decodes with cycleTime 31, a step whose setupTime is 200 decodes with setupTime 127, and
a first step with batchSize 70 decodes to globalBatchSize 63. -/
theorem claim5_clamping (steps : List StepParameters) (u : TimeUnit) (i : Nat)
    (h2 : MIN_STEPS ≤ steps.length) (h5 : steps.length ≤ MAX_STEPS)
    (hi : i < steps.length) :
    ∃ d, parseScenarioCode (generateScenarioCode steps u) = some d ∧
      ((steps.get ⟨i, hi⟩).cycleTime = 99 →
        (d.steps.getD i ⟨0, 0, false, false⟩).cycleTime = 31) ∧
      ((steps.get ⟨i, hi⟩).setupTime = 200 →
        (d.steps.getD i ⟨0, 0, false, false⟩).setupTime = 127) ∧
      (∀ s0, steps.head? = some s0 → s0.batchSize = some 70 →
        d.globalBatchSize = 63) := by
  refine ⟨_, parse_generate_master steps u h2, ?_, ?_, ?_⟩
  · intro h99
    have hsteps : (steps.take (min steps.length MAX_STEPS)).map clampStep =
        steps.map clampStep := by
      rw [Nat.min_eq_left h5, List.take_length]
    rw [hsteps]
    have hget : (steps.map clampStep).getD i ⟨0, 0, false, false⟩ =
        clampStep (steps.get ⟨i, hi⟩) := by
      rw [List.getD_eq_getElem _ _ (by simpa using hi)]
      simp
    rw [hget, clampStep, h99]
    rfl
  · intro h200
    have hsteps : (steps.take (min steps.length MAX_STEPS)).map clampStep =
        steps.map clampStep := by
      rw [Nat.min_eq_left h5, List.take_length]
    rw [hsteps]
    have hget : (steps.map clampStep).getD i ⟨0, 0, false, false⟩ =
        clampStep (steps.get ⟨i, hi⟩) := by
      rw [List.getD_eq_getElem _ _ (by simpa using hi)]
      simp
    rw [hget, clampStep, h200]
    rfl
  · intro s0 hh hb70
    cases steps with
    | nil => simp at hh
    | cons s rest =>
      have hs0 : s = s0 := by simpa using hh
      subst hs0
      have hfb : firstBatchSize (s :: rest) = 70 := by
        simp only [firstBatchSize, hb70]
        rw [if_neg (by omega)]
      rw [hfb]
      rfl

/-- Claim C5, witness: a concrete configuration with cycleTime 99, setupTime 200 and
first batchSize 70 decodes with all three values clamped. -/
theorem claim5_clamping_witness :
    ((parseScenarioCode (generateScenarioCode
      [⟨some 70, some false, 99, 200, false, true⟩, ⟨some 10, some false, 3, 20, true, false⟩]
      TimeUnit.Minutes)).map (fun d => d.globalBatchSize)) = some 63 := by
  obtain ⟨d, hd, hc1, hc2, hc3⟩ := claim5_clamping
    [⟨some 70, some false, 99, 200, false, true⟩, ⟨some 10, some false, 3, 20, true, false⟩]
    TimeUnit.Minutes 0 (by decide) (by decide) (by decide)
  rw [hd]
  have hg := hc3 ⟨some 70, some false, 99, 200, false, true⟩ rfl rfl
  simp [hg]

/-- Claim C6: truncating a token generated from a configuration with step count in
[MIN_STEPS, MAX_STEPS] to fewer characters than the minimum length
ceiling((13 + stepCount * 14) / 6) always yields the invalid outcome. -/
theorem claim6_truncation (steps : List StepParameters) (u : TimeUnit) (k : Nat)
    (h2 : MIN_STEPS ≤ steps.length) (h5 : steps.length ≤ MAX_STEPS)
    (hk : k < (13 + steps.length * 14 + 5) / 6) :
    parseScenarioCode (String.mk ((generateScenarioCode steps u).data.take k)) = none :=
  parse_generate_truncated steps u k h2 h5 hk

/-- Claim C6, witness: a 3-character truncation of a 7-character token is rejected. -/
theorem claim6_truncation_witness :
    parseScenarioCode (String.mk ((generateScenarioCode
      [⟨some 10, some false, 5, 10, false, true⟩, ⟨some 10, some false, 3, 20, true, false⟩]
      TimeUnit.Seconds).data.take 3)) = none :=
  claim6_truncation
    [⟨some 10, some false, 5, 10, false, true⟩, ⟨some 10, some false, 3, 20, true, false⟩]
    TimeUnit.Seconds 3 (by decide) (by decide) (by decide)

/-- Claim C7: one BitWriter.write call appends exactly width bits to the stream; their
value is the lowest width bits of the written value, and when the value fits, the
appended bits are its binary rendering left-padded with zero bits to the width. -/
theorem claim7_write_contract (st : List Bool) (v w : Nat) (hw : 0 < w) :
    bwWrite st v w = st ++ writeBits v w ∧
    (bwWrite st v w).length = st.length + w ∧
    bitsToNat (writeBits v w) = v % 2 ^ w ∧
    (v < 2 ^ w → writeBits v w = padZeros w (natToBits v)) := by
  refine ⟨rfl, ?_, bitsToNat_writeBits v w, ?_⟩
  · rw [bwWrite, List.length_append, writeBits_length]
  · intro hv
    have hle : (natToBits v).length ≤ w := natToBits_length_le v w hw hv
    simp only [writeBits]
    rw [if_neg (by omega)]

/-- Claim C7, witness: writing 12 into 3 bits appends the lowest 3 bits, value 4. -/
theorem claim7_write_contract_witness :
    bwWrite [true] 12 3 = [true] ++ writeBits 12 3 ∧
    (bwWrite [true] 12 3).length = [true].length + 3 ∧
    bitsToNat (writeBits 12 3) = 12 % 2 ^ 3 ∧
    (12 < 2 ^ 3 → writeBits 12 3 = padZeros 3 (natToBits 12)) :=
  claim7_write_contract [true] 12 3 (by decide)

/-- Claim C8: the text transform encodes a bit sequence by right-padding it with zero
bits to a multiple of 6, splitting into consecutive 6-bit groups and mapping each group
value to the alphabet character at that index; decoding the encoded string recovers the
bit sequence followed by exactly those padding bits, a length that is a multiple of 6. -/
theorem claim8_base64_roundtrip (b : List Bool) :
    binaryStringToBase64 b =
      (List.range ((b.length + (6 - b.length % 6) % 6) / 6)).map
        (fun j => CHARS.getD
          (bitsToNat (((b ++ List.replicate ((6 - b.length % 6) % 6) false).drop
            (6 * j)).take 6)) 'A') ∧
    base64ToBinaryString (binaryStringToBase64 b) =
      some (b ++ List.replicate ((6 - b.length % 6) % 6) false) ∧
    (b.length + (6 - b.length % 6) % 6) % 6 = 0 := by
  refine ⟨?_, base64_roundtrip_raw b, by omega⟩
  rw [show binaryStringToBase64 b =
      (chunksAux (padTo6 b).length (padTo6 b)).map
        (fun seg => CHARS.getD (bitsToNat seg) 'A') from rfl]
  rw [chunksAux_eq_range _ _ le_rfl (padTo6_mod b), List.map_map]
  rw [show padTo6 b = b ++ List.replicate ((6 - b.length % 6) % 6) false from rfl]
  rw [show (b ++ List.replicate ((6 - b.length % 6) % 6) false).length =
      b.length + (6 - b.length % 6) % 6 from by simp]
  apply List.map_congr_left
  intro j _
  simp [Function.comp]

/-- Claim C9: whenever parseScenarioCode succeeds, the number of decoded steps lies in
[MIN_STEPS, MAX_STEPS], because the stored 2-bit offset is added back to MIN_STEPS. -/
theorem claim9_step_count_invariant (code : String) (d : ScenarioData)
    (h : parseScenarioCode code = some d) :
    MIN_STEPS ≤ d.steps.length ∧ d.steps.length ≤ MAX_STEPS := by
  obtain ⟨b, hb⟩ := parse_some_binary code d h
  obtain ⟨_, _, _, hlen, _⟩ := parseBinary_some_inv b d hb
  have hc : bitsToNat ((b.drop 4).take 2) < 4 := bitsToNat_take_lt b 4 2
  rw [hlen, MIN_STEPS, MAX_STEPS]
  constructor <;> omega

/-- Claim C9, witness at a concrete 2-step token. -/
theorem claim9_step_count_invariant_witness :
    MIN_STEPS ≤ (⟨TimeUnit.Seconds, [⟨5, 10, false, true⟩, ⟨3, 20, true, false⟩], 10,
      false⟩ : ScenarioData).steps.length ∧
    (⟨TimeUnit.Seconds, [⟨5, 10, false, true⟩, ⟨3, 20, true, false⟩], 10, false⟩ :
      ScenarioData).steps.length ≤ MAX_STEPS :=
  claim9_step_count_invariant "QKFFIyk"
    ⟨TimeUnit.Seconds, [⟨5, 10, false, true⟩, ⟨3, 20, true, false⟩], 10, false⟩
    (by decide)

/-- Claim C10: the encoder writes one 14-bit record for every input step while the 2-bit
count field stores only the clamped count; a list with fewer than MIN_STEPS steps
produces a token the decoder rejects for lack of bits, and a list with more than
MAX_STEPS steps produces a token that decodes to exactly the first MAX_STEPS steps, the
remaining records being ignored trailing bits. -/
theorem claim10_step_records (steps : List StepParameters) (u : TimeUnit) :
    (generateBits steps u).length = 13 + 14 * steps.length ∧
    bitsToNat (((generateBits steps u).drop 4).take 2) =
      min (max steps.length MIN_STEPS) MAX_STEPS - MIN_STEPS ∧
    (steps.length < MIN_STEPS →
      parseScenarioCode (generateScenarioCode steps u) = none) ∧
    (MAX_STEPS < steps.length →
      parseScenarioCode (generateScenarioCode steps u) =
        some ⟨u, (steps.take MAX_STEPS).map clampStep,
          min (firstBatchSize steps) 63, firstBatchLock steps⟩) := by
  refine ⟨generateBits_length steps u, ?_, parse_generate_short steps u, ?_⟩
  · have hcc := generate_count_chunk steps u []
    rw [List.append_nil] at hcc
    rw [hcc, bitsToNat_writeBits_lt _ 2 (by simp only [MIN_STEPS, MAX_STEPS]; omega)]
  · intro h5
    have h2 : MIN_STEPS ≤ steps.length := by
      simp only [MIN_STEPS, MAX_STEPS] at h5 ⊢
      omega
    rw [parse_generate_master steps u h2, Nat.min_eq_right (le_of_lt h5)]

/-- Claim C10, witness: a single-step list encodes to a token the decoder rejects. -/
theorem claim10_step_records_witness :
    parseScenarioCode (generateScenarioCode
      [⟨some 9, some false, 3, 20, true, false⟩] TimeUnit.Hours) = none :=
  (claim10_step_records [⟨some 9, some false, 3, 20, true, false⟩] TimeUnit.Hours).2.2.1
    (by decide)

end Codec
